import Mathlib

/-!
Shallow embedding of the core of `httm`, a snapshot file-version explorer,
together with proofs about its version lookup, deleted-file discovery,
path deconstruction and recursive enumeration.

Paths are modelled as lists of components (`PathBuf`); modify times and
sizes are natural numbers.  Filesystem reads, which the real program
performs through syscalls, are passed in as explicit inputs.
-/

namespace Httm

/-- A canonical absolute path, as its list of components below the root.
The root directory itself is `[]`. -/
abbrev PathBuf := List String

/-- Size in bytes and modify time of a path, from `data/paths.rs`
(`PathMetadata`). -/
structure PathMetadata where
  size : Nat
  modify_time : Nat
deriving DecidableEq, Repr

/-- The sentinel metadata used for records that have none
(`PHANTOM_PATH_METADATA` in `data/paths.rs`). -/
def PHANTOM_PATH_METADATA : PathMetadata := { size := 0, modify_time := 0 }

/-- A canonical path together with its optional metadata
(`PathData` in `data/paths.rs`).  `metadata = none` marks a phantom
record.  Equality is structural, as with the derived `PartialEq`. -/
structure PathData where
  path_buf : PathBuf
  metadata : Option PathMetadata
deriving DecidableEq, Repr

/-- `PathData::md_infallible`: the metadata, falling back to the phantom
sentinel. -/
def PathData.md_infallible (pd : PathData) : PathMetadata :=
  pd.metadata.getD PHANTOM_PATH_METADATA

/-- Three-way comparison of two strings through the linear order. -/
def strCompare (a b : String) : Ordering :=
  if a < b then .lt else if b < a then .gt else .eq

/-- Lexicographic three-way comparison of two component lists; models
`Path::cmp` on canonical paths. -/
def pathCompare : PathBuf → PathBuf → Ordering
  | [], [] => .eq
  | [], _ :: _ => .lt
  | _ :: _, [] => .gt
  | a :: as, b :: bs =>
    match strCompare a b with
    | .eq => pathCompare as bs
    | o => o

/-- `Ord for PathData` in `data/paths.rs`: comparison looks only at the
canonical path, never at the metadata. -/
def PathData.cmp (x y : PathData) : Ordering :=
  pathCompare x.path_buf y.path_buf

/-- The uniqueness discipline for version lists (`ListSnapsOfType` in the
configuration). -/
inductive ListSnapsOfType where
  | all
  | uniqueMetadata
  | uniqueContents
deriving DecidableEq, Repr

/-- The sort key used by `sort_dedup_versions`: ascending modify time of
the infallible metadata. -/
def MtimeLe (a b : PathData) : Prop :=
  a.md_infallible.modify_time ≤ b.md_infallible.modify_time

instance : DecidableRel MtimeLe := fun a b =>
  inferInstanceAs (Decidable (_ ≤ _))

instance : IsTotal PathData MtimeLe :=
  ⟨fun a b => Nat.le_total _ _⟩

instance : IsTrans PathData MtimeLe :=
  ⟨fun _ _ _ => Nat.le_trans⟩

/-- Sorting a version list by modify time, modelling the
`sort_unstable_by_key(.. modify_time)` calls in
`RelativePathAndSnapMounts::sort_dedup_versions`. -/
def sortByMtime (l : List PathData) : List PathData :=
  List.insertionSort MtimeLe l

/-- Modelled from the spec: the equality test of
`CompareVersionsContainer` (its source file is not part of the sources at
hand; only its use in `lookup/versions.rs` is).  Under `UniqueMetadata`
two records compare equal when their (mtime, size) metadata are
identical; under `UniqueContents` when their file contents hash equal.
Content hashing is a filesystem effect, passed in as the oracle `hash`. -/
def containerEq (uniq : ListSnapsOfType) (hash : PathBuf → Nat)
    (a b : PathData) : Bool :=
  match uniq with
  | .all => false
  | .uniqueMetadata => a.md_infallible = b.md_infallible
  | .uniqueContents => hash a.path_buf = hash b.path_buf

/-- The running state of `Vec::dedup_by`: drop each element comparing
equal to the last retained element `last`, retain the rest. -/
def dedupAux (eq : α → α → Bool) (last : α) : List α → List α
  | [] => []
  | y :: ys => if eq last y then dedupAux eq last ys else y :: dedupAux eq y ys

/-- `Vec::dedup_by`: removes all but the first of consecutive elements
comparing equal; each element is compared against the last retained
one. -/
def dedupKeepFirst (eq : α → α → Bool) : List α → List α
  | [] => []
  | x :: xs => x :: dedupAux eq x xs

/-- `RelativePathAndSnapMounts::sort_dedup_versions` in
`lookup/versions.rs`: under `All` just sort ascending by modify time;
otherwise sort, then drop consecutive records whose containers compare
equal. -/
def sort_dedup_versions (uniq : ListSnapsOfType) (hash : PathBuf → Nat)
    (l : List PathData) : List PathData :=
  match uniq with
  | .all => sortByMtime l
  | .uniqueMetadata | .uniqueContents =>
    dedupKeepFirst (containerEq uniq hash) (sortByMtime l)

/-- The `--last-snap` reduction variants (`LastSnapMode` in the
configuration). -/
inductive LastSnapMode where
  | any
  | without
  | dittoOnly
  | noDittoExclusive
  | noDittoInclusive
deriving DecidableEq, Repr

/-- The relevant slice of the lookup configuration consumed by
`VersionsMap::new`. -/
structure VersionsConfig where
  isInteractive : Bool
  optOmitDitto : Bool
  optLastSnap : Option LastSnapMode
deriving DecidableEq, Repr

/-- The outcome of the per-path `Versions::new` lookup consumed by
`VersionsMap::new`: the live record together with its snapshot version
list, or `none` when the per-path lookup failed (for instance with a
"no proximate dataset" error).  The filesystem part of the lookup is an
input here. -/
structure LookupResult where
  live : PathData
  result : Option (List PathData)
deriving DecidableEq, Repr

/-- The entries that survive the `filter_map` in `VersionsMap::new`: the
per-path lookups that succeeded, in order.  Models collecting into the
`BTreeMap` (faithful up to key order when the input paths are
distinct). -/
def collectedEntries (input : List LookupResult) :
    List (PathData × List PathData) :=
  input.filterMap (fun lr => lr.result.map (fun snaps => (lr.live, snaps)))

/-- The warnings `VersionsMap::new` prints to stderr. -/
inductive WarnEvent where
  | lookupError (live : PathData)
  | neverExisted (live : PathData)
deriving DecidableEq, Repr

/-- The warning stream of `VersionsMap::new`: per-path lookup errors and
the "input file may have never existed" warning, all suppressed in
interactive mode. -/
def warningsOf (cfg : VersionsConfig) (input : List LookupResult) :
    List WarnEvent :=
  input.filterMap fun lr =>
    if cfg.isInteractive then none
    else
      match lr.result with
      | none => some (.lookupError lr.live)
      | some snaps =>
        if lr.live.metadata = none ∧ snaps = [] then
          some (.neverExisted lr.live)
        else none

/-- `VersionsMap::is_live_version_redundant`: the last snapshot version
exists and its metadata equals the live record's metadata. -/
def is_live_version_redundant (live : PathData) (snaps : List PathData) :
    Bool :=
  match snaps.getLast? with
  | some last => last.metadata = live.metadata
  | none => false

/-- `VersionsMap::omit_ditto`: for each entry, pop the last snapshot
version when it is redundant with the live record. -/
def omit_ditto (entries : List (PathData × List PathData)) :
    List (PathData × List PathData) :=
  entries.map fun e =>
    if is_live_version_redundant e.1 e.2 then (e.1, e.2.dropLast) else e

/-- `VersionsMap::last_snap`: reduce each entry's version list according
to the requested `LastSnapMode` variant. -/
def last_snap (mode : LastSnapMode)
    (entries : List (PathData × List PathData)) :
    List (PathData × List PathData) :=
  entries.map fun e =>
    (e.1,
      match e.2.getLast? with
      | some last =>
        match mode with
        | .any => [last]
        | .dittoOnly => if e.1.metadata = last.metadata then [last] else []
        | .noDittoExclusive =>
          if e.1.metadata ≠ last.metadata then [last] else []
        | .noDittoInclusive =>
          if e.1.metadata ≠ last.metadata then [last] else []
        | .without => []
      | none =>
        match mode with
        | .without => [e.1]
        | .noDittoInclusive => [e.1]
        | _ => [])

/-- The "no live version, no snapshot version" error test in
`VersionsMap::new`: every surviving entry has an empty version list and
a phantom live record. -/
def noVersionsCond (entries : List (PathData × List PathData)) : Bool :=
  entries.all (fun e => e.2.isEmpty) &&
    entries.all (fun e => e.1.metadata.isNone)

/-- `VersionsMap::new` in `lookup/versions.rs`, after the per-path
lookups: collect the successful lookups, fail when none of them shows a
live or snapshot version, then post-process with `omit_ditto` and
`last_snap`. -/
def versionsMapNew (cfg : VersionsConfig) (input : List LookupResult) :
    Except Unit (List (PathData × List PathData)) :=
  let entries := collectedEntries input
  if noVersionsCond entries then .error ()
  else
    let entries := if cfg.optOmitDitto then omit_ditto entries else entries
    let entries :=
      match cfg.optLastSnap with
      | some mode => last_snap mode entries
      | none => entries
    .ok entries

/-- `Path::ancestors` on a canonical absolute path: the path itself,
then each parent up to and including the root `[]` — that is, every
component-list prefix of the path, longest first. -/
def ancestors : PathBuf → List PathBuf
  | [] => [[]]
  | x :: ps => (ancestors ps).map (fun a => x :: a) ++ [[]]

/-- Modelled from the spec: `MaxLen::max_len` (its source file is not
part of the sources at hand), "a cached maximum across the inventory" of
the dataset mounts' component counts. -/
def max_len (datasets : List PathBuf) : Nat :=
  datasets.foldr (fun k acc => max k.length acc) 0

/-- `PathData::proximate_dataset` in `data/paths.rs`: walk the
ancestors of the canonical path, skipping the leading ones with more
components than any dataset mount, and return the first that is a key of
the dataset map; `none` models the "no proximate dataset" error. -/
def proximate_dataset (p : PathBuf) (datasets : List PathBuf) :
    Option PathBuf :=
  ((ancestors p).dropWhile (fun a => decide (a.length > max_len datasets))).find?
    (fun a => decide (a ∈ datasets))

/-- Modelled from the spec: the constant `ZFS_SNAPSHOT_DIRECTORY` (its
source file is not part of the sources at hand); the spec fixes the
snapshot-path discriminator substring as `/.zfs/snapshot/`, of which the
constant is the separator-free part. -/
def zfsSnapshotDirectory : List Char := "/.zfs/snapshot".toList

/-- The separator `ZfsSnapPathGuard` splits on:
`format!("{ZFS_SNAPSHOT_DIRECTORY}/")`. -/
def zfsSnapSep : List Char := zfsSnapshotDirectory ++ ['/']

/-- `str::split_once`: split a character list at the first occurrence of
`pat`, returning the parts before and after it. -/
def splitOnce (pat : List Char) : List Char → Option (List Char × List Char)
  | [] => if pat.isPrefixOf ([] : List Char) then some ([], []) else none
  | c :: cs =>
    if pat.isPrefixOf (c :: cs) then some ([], (c :: cs).drop pat.length)
    else (splitOnce pat cs).map (fun pr => (c :: pr.1, pr.2))

/-- `str::contains` on character lists: `pat` occurs somewhere in the
string. -/
def occursIn (pat : List Char) : List Char → Bool
  | [] => pat.isEmpty
  | c :: cs => pat.isPrefixOf (c :: cs) || occursIn pat cs

/-- `ZfsSnapPathGuard::is_zfs_snap_path`: the path's string contains
`ZFS_SNAPSHOT_DIRECTORY`. -/
def is_zfs_snap_path (s : List Char) : Bool :=
  occursIn zfsSnapshotDirectory s

/-- `PathBuf::join` on path strings: an absolute right operand replaces
the left one; otherwise the parts are joined with a single separator. -/
def pathJoin (a b : List Char) : List Char :=
  if b.head? = some '/' then b
  else if a = [] then b
  else if a.getLast? = some '/' then a ++ b
  else a ++ '/' :: b

/-- `ZfsSnapPathGuard::live_path` in `data/paths.rs`: split the path
string once on the snapshot separator, split the remainder once on `/`
to drop the snapshot name, and join the dataset part with the rest. -/
def live_path (s : List Char) : Option (List Char) :=
  (splitOnce zfsSnapSep s).bind fun pr =>
    (splitOnce ['/'] pr.2).map fun pr2 => pathJoin pr.1 pr2.2

/-- A directory entry seen in a snapshot mirror during deleted-file
discovery (`BasicDirEntryInfo` plus the modify time its later stat
reads): filename, full snapshot path, modify time. -/
structure SnapEntry where
  file_name : String
  path : PathBuf
  mtime : Nat
deriving DecidableEq, Repr

/-- The last entry of `l` carrying the key `k`. -/
def lastFor (l : List SnapEntry) (k : String) : Option SnapEntry :=
  (l.filter (fun e => e.file_name = k)).getLast?

/-- Collecting `(file_name, entry)` pairs into a hash map in
`get_deleted_per_dataset`: a later insertion overwrites an earlier one
with the same key.  The hash map's iteration order is unspecified; it is
modelled here as the order of first insertion of each key (no theorem
below depends on this choice). -/
def hashMapCollect (l : List SnapEntry) : List SnapEntry :=
  ((l.map (fun e => e.file_name)).dedup).filterMap (lastFor l)

/-- `get_deleted_per_dataset` in `deleted.rs`: flatten the entries read
from every snapshot mirror of the directory into a map keyed by
filename, then keep only the filenames that are not live children.
`localNames` are the direct children of the directory on the live
filesystem; `snapMirrors` holds, per snapshot (in snapshot-directory
read order), the entries of that snapshot's mirror of the directory. -/
def get_deleted_per_dataset (localNames : List String)
    (snapMirrors : List (List SnapEntry)) : List SnapEntry :=
  (hashMapCollect snapMirrors.flatten).filter
    (fun e => decide (e.file_name ∉ localNames))

/-- `itertools::group_by`: split into maximal runs of consecutive
elements whose keys compare equal (each element is compared with its
direct neighbour). -/
def groupByAdjacent (eq : α → α → Bool) : List α → List (List α)
  | [] => []
  | [x] => [[x]]
  | x :: y :: ys =>
    match groupByAdjacent eq (y :: ys) with
    | [] => [[x]]
    | g :: gs => if eq x y then (x :: g) :: gs else [x] :: g :: gs

/-- `Iterator::max_by_key` on the modify time: the last of the maximal
elements, or `none` for an empty group. -/
def maxByMtimeLast : List SnapEntry → Option SnapEntry
  | [] => none
  | x :: xs => some (xs.foldl (fun acc e => if acc.mtime ≤ e.mtime then e else acc) x)

/-- `get_unique_deleted` in `deleted.rs`: concatenate the per-dataset
deleted entries over the datasets of interest, group consecutive entries
with equal filenames, and keep the latest of each group.  `datasets`
lists, per dataset of interest, the snapshot mirrors' entry lists. -/
def get_unique_deleted (localNames : List String)
    (datasets : List (List (List SnapEntry))) : List SnapEntry :=
  let collected := (datasets.map (get_deleted_per_dataset localNames)).flatten
  (groupByAdjacent (fun a b => a.file_name = b.file_name) collected).filterMap
    maxByMtimeLast

/-- The spec's description of deleted discovery, for comparison: gather
every tuple seen in any snapshot mirror of any dataset of interest,
group the tuples by filename, pick the tuple with the greatest modify
time per filename, and emit those whose filename is not a live child. -/
def specUniqueDeleted (localNames : List String)
    (datasets : List (List (List SnapEntry))) : List SnapEntry :=
  let collected := (datasets.map (fun ds => ds.flatten)).flatten
  (((collected.map (fun e => e.file_name)).dedup).filterMap
      (fun k => maxByMtimeLast (collected.filter (fun e => e.file_name = k)))).filter
    (fun e => decide (e.file_name ∉ localNames))

/-- The trace of one recursive enumeration (`iterative_enumeration` in
`exec/recursive.rs`): the directories popped from the work queue, the
entries delivered through the sink, the directories popped after a send
had already failed, and whether a send failed at all. -/
structure RunTrace where
  popped : List Nat
  delivered : List Nat
  poppedAfterFail : List Nat
  failed : Bool
deriving DecidableEq, Repr

/-- `transmit_entries`: `try_send` each entry in turn, stopping at the
first failure.  The consumer is modelled by `budget`, the number of
sends it will still accept before it is gone; returns the remaining
budget, the entries delivered, and whether every send succeeded. -/
def transmitEntries : Nat → List Nat → Nat × List Nat × Bool
  | budget, [] => (budget, [], true)
  | 0, _ :: _ => (0, [], false)
  | budget + 1, e :: es =>
    let r := transmitEntries budget es
    (r.1, e :: r.2.1, r.2.2)

/-- `get_entries_partitioned` for a directory: read its entries
(`fs d`, each a child id paired with its is-directory flag), filter out
excluded directories, and split into (dirs, files). -/
def get_entries_partitioned (fs : Nat → List (Nat × Bool))
    (filterDir : Nat → Bool) (d : Nat) : List Nat × List Nat :=
  let entries := (fs d).filter (fun e => if e.2 then ! filterDir e.1 else true)
  ((entries.filter (fun e => e.2)).map (fun e => e.1),
    (entries.filter (fun e => ! e.2)).map (fun e => e.1))

/-- `enumerate_live` for one directory with deleted-mode `Disabled`:
partition the entries, send files then dirs to the sink, and return the
subdirectories for recursion — or an error when a send failed. -/
def enumerate_live (fs : Nat → List (Nat × Bool)) (filterDir : Nat → Bool)
    (budget : Nat) (d : Nat) : Nat × List Nat × Option (List Nat) :=
  let parts := get_entries_partitioned fs filterDir d
  let t := transmitEntries budget (parts.2 ++ parts.1)
  if t.2.2 then (t.1, t.2.1, some parts.1) else (t.1, t.2.1, none)

/-- The recursive loop of `iterative_enumeration`: pop the back of the
work queue (the queue is stored back-first, so its head is popped),
enumerate that directory, push its subdirectories when enumeration
succeeded, and continue; errors are swallowed.  `fuel` bounds the number
of iterations. -/
def runLoop (fs : Nat → List (Nat × Bool)) (filterDir : Nat → Bool) :
    Nat → List Nat → Nat → Bool → RunTrace
  | 0, _, _, failed => ⟨[], [], [], failed⟩
  | _ + 1, [], _, failed => ⟨[], [], [], failed⟩
  | fuel + 1, d :: rest, budget, failed =>
    let r := enumerate_live fs filterDir budget d
    let failedHere := r.2.2.isNone
    let queue :=
      match r.2.2 with
      | some dirs => dirs.reverse ++ rest
      | none => rest
    let t := runLoop fs filterDir fuel queue r.1 (failed || failedHere)
    ⟨d :: t.popped, r.2.1 ++ t.delivered,
      (if failed then [d] else []) ++ t.poppedAfterFail, t.failed⟩

/-- `iterative_enumeration` in `exec/recursive.rs` (recursive mode,
deleted-mode `Disabled`): enumerate the requested directory, seed the
work queue with its subdirectories, and run the loop. -/
def iterative_enumeration (fs : Nat → List (Nat × Bool))
    (filterDir : Nat → Bool) (fuel : Nat) (root : Nat) (budget : Nat) :
    RunTrace :=
  let r := enumerate_live fs filterDir budget root
  match r.2.2 with
  | none => ⟨[], r.2.1, [], true⟩
  | some dirs =>
    let t := runLoop fs filterDir fuel dirs.reverse r.1 false
    ⟨t.popped, r.2.1 ++ t.delivered, t.poppedAfterFail, t.failed⟩

/-! ### Lemmas and theorems -/

theorem strCompare_eq_iff (a b : String) : strCompare a b = .eq ↔ a = b := by
  unfold strCompare
  by_cases h1 : a < b
  · simp only [h1, if_true]
    constructor
    · intro h; cases h
    · intro h; exact absurd h (ne_of_lt h1)
  · by_cases h2 : b < a
    · simp only [h1, h2, if_false, if_true]
      constructor
      · intro h; cases h
      · intro h; exact absurd h.symm (ne_of_lt h2)
    · simp only [h1, h2, if_false]
      simp only [true_iff]
      exact le_antisymm (not_lt.mp h2) (not_lt.mp h1)

theorem pathCompare_eq_iff : ∀ x y : PathBuf, pathCompare x y = .eq ↔ x = y
  | [], [] => by simp [pathCompare]
  | [], _ :: _ => by simp [pathCompare]
  | _ :: _, [] => by simp [pathCompare]
  | a :: as, b :: bs => by
    simp only [pathCompare]
    rcases h : strCompare a b with _ | _ | _
    · constructor
      · intro hx; cases hx
      · intro hx
        injection hx with h1 h2
        rw [h1, (strCompare_eq_iff b b).mpr rfl] at h
        cases h
    · rw [pathCompare_eq_iff as bs]
      constructor
      · intro hx
        rw [(strCompare_eq_iff a b).mp h, hx]
      · intro hx
        injection hx
    · constructor
      · intro hx; cases hx
      · intro hx
        injection hx with h1 h2
        rw [h1, (strCompare_eq_iff b b).mpr rfl] at h
        cases h

/-- C9 counterexample: two records with the same canonical path but
different metadata compare `eq` under the source's ordering, yet are not
equal, because the derived structural equality also compares the
metadata. -/
theorem pathdata_eq_not_path_only_counterexample :
    PathData.cmp ⟨["p"], none⟩ ⟨["p"], some ⟨1, 2⟩⟩ = .eq ∧
    (⟨["p"], none⟩ : PathData) ≠ ⟨["p"], some ⟨1, 2⟩⟩ ∧
    (⟨["p"], none⟩ : PathData).path_buf = (⟨["p"], some ⟨1, 2⟩⟩ : PathData).path_buf := by
  refine ⟨?_, by decide, rfl⟩
  have := (pathCompare_eq_iff ["p"] ["p"]).mpr rfl
  simpa [PathData.cmp] using this

/-- C9 amended: PathData ordering is by canonical path alone (the
comparison yields `eq` exactly when the paths agree, and never reads the
metadata), but equality is structural: two records are equal iff both
their paths and their optional metadata agree. -/
theorem pathdata_cmp_by_path_eq_structural :
    ∀ x y : PathData,
      (PathData.cmp x y = .eq ↔ x.path_buf = y.path_buf) ∧
      (x = y ↔ x.path_buf = y.path_buf ∧ x.metadata = y.metadata) ∧
      (∀ m m' : Option PathMetadata,
        PathData.cmp ⟨x.path_buf, m⟩ ⟨y.path_buf, m'⟩ = PathData.cmp x y) := by
  intro x y
  refine ⟨pathCompare_eq_iff x.path_buf y.path_buf, ?_, fun m m' => rfl⟩
  constructor
  · intro h; rw [h]; exact ⟨rfl, rfl⟩
  · intro ⟨h1, h2⟩
    cases x; cases y
    simp only [] at h1 h2
    rw [h1, h2]

/-- C9 witness: the amended theorem applied at a concrete pair. -/
theorem pathdata_cmp_by_path_witness :
    PathData.cmp ⟨["a"], none⟩ ⟨["a"], some ⟨3, 4⟩⟩ = .eq :=
  (pathdata_cmp_by_path_eq_structural ⟨["a"], none⟩ ⟨["a"], some ⟨3, 4⟩⟩).1.mpr rfl

/-- C5: the `last_snap` reduction follows the claimed per-variant table:
`Any` keeps exactly the last element; `DittoOnly` keeps the last element
iff its metadata equals the live record's; `NoDittoExclusive` and
`NoDittoInclusive` keep the last element iff its metadata differs from
the live record's; on an empty list, `Without` and `NoDittoInclusive`
yield the singleton live record while every other variant yields the
empty list. -/
theorem last_snap_variant_table :
    ∀ (mode : LastSnapMode) (entries : List (PathData × List PathData)),
      last_snap mode entries = entries.map (fun e =>
        (e.1,
          match e.2.getLast? with
          | none => if mode = .without ∨ mode = .noDittoInclusive then [e.1] else []
          | some v =>
            match mode with
            | .any => [v]
            | .dittoOnly => if v.metadata = e.1.metadata then [v] else []
            | .noDittoExclusive => if v.metadata ≠ e.1.metadata then [v] else []
            | .noDittoInclusive => if v.metadata ≠ e.1.metadata then [v] else []
            | .without => [])) := by
  intro mode entries
  unfold last_snap
  refine List.map_congr_left ?_
  intro e _
  rcases hl : e.2.getLast? with _ | v
  · cases mode <;> simp
  · cases mode <;> simp [eq_comm, ne_comm]

/-- C4 counterexample: with omit-ditto enabled and two trailing snapshot
versions whose metadata both equal the live record's, only one is
popped, so the returned list's last element still has metadata equal to
the live record's. -/
theorem omit_ditto_last_can_remain_counterexample :
    versionsMapNew ⟨false, true, none⟩
        [⟨⟨["tank", "a"], some ⟨5, 300⟩⟩,
          some [⟨["s1", "a"], some ⟨5, 300⟩⟩, ⟨["s2", "a"], some ⟨5, 300⟩⟩]⟩] =
      .ok [(⟨["tank", "a"], some ⟨5, 300⟩⟩, [⟨["s1", "a"], some ⟨5, 300⟩⟩])] ∧
    (⟨["s1", "a"], some ⟨5, 300⟩⟩ : PathData).metadata =
      (⟨["tank", "a"], some ⟨5, 300⟩⟩ : PathData).metadata := by
  constructor
  · rfl
  · rfl

/-- C4 amended: with omit-ditto enabled (and no last-snap mode), the
lookup drops exactly the last version of each list when its metadata
equals the live record's — a single pop, after which the new last
element may still have metadata equal to the live record's. -/
theorem omit_ditto_drops_one_trailing_ditto :
    ∀ (cfg : VersionsConfig) (input : List LookupResult)
      (out : List (PathData × List PathData)),
      cfg.optOmitDitto = true → cfg.optLastSnap = none →
      versionsMapNew cfg input = .ok out →
      out = (collectedEntries input).map (fun e =>
        (e.1,
          if e.2.getLast?.map (fun v => v.metadata) = some e.1.metadata then
            e.2.dropLast
          else e.2)) := by
  intro cfg input out homit hlast hok
  unfold versionsMapNew at hok
  rw [homit, hlast] at hok
  by_cases hcond : noVersionsCond (collectedEntries input) = true
  · rw [if_pos hcond] at hok
    cases hok
  · rw [if_neg hcond] at hok
    simp only [if_true] at hok
    injection hok with hout
    rw [← hout]
    unfold omit_ditto
    refine List.map_congr_left ?_
    intro e _
    unfold is_live_version_redundant
    rcases hl : e.2.getLast? with _ | v
    · simp
    · by_cases hm : v.metadata = e.1.metadata
      · simp [hm]
      · simp [hm]

/-- C4 witness: the amended theorem applied at a concrete input. -/
theorem omit_ditto_drops_one_witness :
    ([((⟨["t"], some ⟨1, 7⟩⟩ : PathData), ([] : List PathData))] :
        List (PathData × List PathData)) =
      (collectedEntries [⟨⟨["t"], some ⟨1, 7⟩⟩, some []⟩]).map (fun e =>
        (e.1,
          if e.2.getLast?.map (fun v => v.metadata) = some e.1.metadata then
            e.2.dropLast
          else e.2)) :=
  omit_ditto_drops_one_trailing_ditto ⟨false, true, none⟩
    [⟨⟨["t"], some ⟨1, 7⟩⟩, some []⟩] [(⟨["t"], some ⟨1, 7⟩⟩, [])]
    rfl rfl rfl

theorem noVersionsCond_iff (entries : List (PathData × List PathData)) :
    noVersionsCond entries = true ↔
      ∀ e ∈ entries, e.2 = [] ∧ e.1.metadata = none := by
  unfold noVersionsCond
  rw [Bool.and_eq_true, List.all_eq_true, List.all_eq_true]
  constructor
  · intro ⟨h1, h2⟩ e he
    exact ⟨List.isEmpty_iff.mp (h1 e he), Option.isNone_iff_eq_none.mp (h2 e he)⟩
  · intro h
    exact ⟨fun e he => List.isEmpty_iff.mpr (h e he).1,
      fun e he => Option.isNone_iff_eq_none.mpr (h e he).2⟩

/-- C3 counterexample: a single non-phantom input path whose per-path
lookup fails (for instance because no proximate dataset exists for it)
is dropped before the error test, so the lookup returns the "no live, no
snapshot" error even though not every input live path is phantom. -/
theorem versions_map_error_iff_counterexample :
    ¬ (((versionsMapNew ⟨false, false, none⟩
            [⟨⟨["home", "u", "f"], some ⟨5, 300⟩⟩, none⟩]).isOk = false) ↔
        ∀ lr ∈ [(⟨⟨["home", "u", "f"], some ⟨5, 300⟩⟩, none⟩ : LookupResult)],
          lr.result.getD [] = [] ∧ lr.live.metadata = none) := by
  intro h
  have h1 : (versionsMapNew ⟨false, false, none⟩
      [⟨⟨["home", "u", "f"], some ⟨5, 300⟩⟩, none⟩]).isOk = false := rfl
  have h2 := (h.mp h1 ⟨⟨["home", "u", "f"], some ⟨5, 300⟩⟩, none⟩ (by simp)).2
  cases h2

/-- C3 amended: the "no live, no snapshot" error test is evaluated over
the per-path lookups that succeeded: the lookup errors iff every
surviving entry has an empty version list and a phantom live record
(vacuously so when every per-path lookup failed, even for non-phantom
inputs).  A path with no versions only yields a warning, and all
warnings are suppressed in interactive mode. -/
theorem versions_map_error_iff_surviving_entries :
    ∀ (cfg : VersionsConfig) (input : List LookupResult),
      ((versionsMapNew cfg input).isOk = false ↔
        ∀ e ∈ collectedEntries input, e.2 = [] ∧ e.1.metadata = none) ∧
      (cfg.isInteractive = true → warningsOf cfg input = []) ∧
      (∀ pd : PathData,
        WarnEvent.neverExisted pd ∈ warningsOf cfg input ↔
          (cfg.isInteractive = false ∧
            ∃ lr ∈ input, lr.live = pd ∧ pd.metadata = none ∧
              lr.result = some [])) := by
  intro cfg input
  refine ⟨?_, ?_, ?_⟩
  · rw [← noVersionsCond_iff]
    unfold versionsMapNew
    by_cases hcond : noVersionsCond (collectedEntries input) = true
    · simp [hcond, Except.isOk, Except.toBool]
    · rcases hl : cfg.optLastSnap with _ | mode <;>
        simp [hcond, hl, Except.isOk, Except.toBool]
  · intro hint
    unfold warningsOf
    rw [hint]
    simp
  · intro pd
    unfold warningsOf
    rw [List.mem_filterMap]
    constructor
    · intro ⟨lr, hmem, heq⟩
      rcases hint : cfg.isInteractive
      · rw [hint] at heq
        simp only [Bool.false_eq_true, if_false] at heq
        rcases hres : lr.result with _ | snaps
        · rw [hres] at heq
          simp at heq
        · rw [hres] at heq
          dsimp only at heq
          by_cases hc : lr.live.metadata = none ∧ snaps = []
          · rw [if_pos hc] at heq
            injection heq with heq1
            injection heq1 with heq2
            refine ⟨rfl, lr, hmem, heq2, heq2 ▸ hc.1, ?_⟩
            rw [hres, hc.2]
          · rw [if_neg hc] at heq
            cases heq
      · rw [hint] at heq
        simp at heq
    · intro ⟨hint, lr, hmem, hlive, hmeta, hres⟩
      refine ⟨lr, hmem, ?_⟩
      rw [hint]
      simp only [Bool.false_eq_true, if_false]
      rw [hres]
      dsimp only
      rw [if_pos ⟨hlive ▸ hmeta, rfl⟩, hlive]

/-- C3 witness: the amended theorem applied at a concrete input. -/
theorem versions_map_error_iff_witness :
    warningsOf ⟨true, false, none⟩ [⟨⟨["x"], none⟩, some []⟩] = [] :=
  (versions_map_error_iff_surviving_entries ⟨true, false, none⟩
    [⟨⟨["x"], none⟩, some []⟩]).2.1 rfl

/-- C10: the error decision of the lookup is taken before (and
independently of) the omit-ditto and last-snap post-processing, so
whenever some surviving entry has a snapshot version or a non-phantom
live record the lookup returns `ok` — for every configuration, even one
whose post-processing empties all the returned lists. -/
theorem versions_map_ok_before_postprocessing :
    ∀ (input : List LookupResult) (c c' : VersionsConfig),
      ((versionsMapNew c input).isOk = (versionsMapNew c' input).isOk) ∧
      ((∃ e ∈ collectedEntries input, e.2 ≠ [] ∨ e.1.metadata ≠ none) →
        ∃ v, versionsMapNew c input = .ok v) := by
  intro input c c'
  constructor
  · unfold versionsMapNew
    by_cases hcond : noVersionsCond (collectedEntries input) = true
    · simp [hcond]
    · rcases hl : c.optLastSnap with _ | m <;> rcases hl2 : c'.optLastSnap with _ | m' <;>
        simp [hcond, hl, hl2, Except.isOk, Except.toBool]
  · intro ⟨e, hmem, hne⟩
    have hcond : ¬ noVersionsCond (collectedEntries input) = true := by
      intro hc
      rcases hne with hne | hne
      · exact hne ((noVersionsCond_iff _).mp hc e hmem).1
      · exact hne ((noVersionsCond_iff _).mp hc e hmem).2
    unfold versionsMapNew
    rw [if_neg hcond]
    exact ⟨_, rfl⟩

/-- C10 witness: the theorem applied at a concrete input whose only
entry has a snapshot version, with a configuration whose last-snap
post-processing then empties the list. -/
theorem versions_map_ok_before_postprocessing_witness :
    ∃ v, versionsMapNew ⟨false, false, some .dittoOnly⟩
        [⟨⟨["a"], none⟩, some [⟨["s"], some ⟨1, 2⟩⟩]⟩] = .ok v :=
  (versions_map_ok_before_postprocessing
      [⟨⟨["a"], none⟩, some [⟨["s"], some ⟨1, 2⟩⟩]⟩]
      ⟨false, false, some .dittoOnly⟩ ⟨false, false, none⟩).2
    ⟨(⟨["a"], none⟩, [⟨["s"], some ⟨1, 2⟩⟩]), by decide, by decide⟩

/-- C2: evaluating the deleted lookup at a concrete input.  First
conjunct pair: with one dataset and two snapshots both containing file
`c` (mtimes 200 and 100, in that snapshot read order), the per-dataset
hash-map collapse keeps the later-inserted tuple, so the lookup returns
the mtime-100 tuple while the spec's description returns the mtime-200
one.  Third conjunct: with two datasets of interest whose mirrors both
contain deleted files `c` and `d`, the adjacent-only grouping emits two
entries per filename. -/
theorem get_unique_deleted_drops_latest_version_eval :
    get_unique_deleted [] [[[⟨"c", ["s2", "c"], 200⟩], [⟨"c", ["s1", "c"], 100⟩]]] =
      [⟨"c", ["s1", "c"], 100⟩] ∧
    specUniqueDeleted [] [[[⟨"c", ["s2", "c"], 200⟩], [⟨"c", ["s1", "c"], 100⟩]]] =
      [⟨"c", ["s2", "c"], 200⟩] ∧
    (get_unique_deleted []
        [[[⟨"c", ["t2"], 200⟩, ⟨"d", ["u2"], 200⟩]],
          [[⟨"c", ["t1"], 100⟩, ⟨"d", ["u1"], 100⟩]]]).map
        (fun e => e.file_name) =
      ["c", "d", "c", "d"] := by
  refine ⟨by decide, by decide, by decide⟩

/-- C8 counterexample: a send fails while enumerating the second-level
directory `2` (the consumer accepts only the two root entries), yet the
enumerator still pops directory `1` from the work queue afterwards. -/
theorem enumerator_pops_after_failed_send_counterexample :
    (iterative_enumeration
        (fun n =>
          if n = 0 then [(1, true), (2, true)]
          else if n = 1 then [(3, false)]
          else if n = 2 then [(4, false)]
          else [])
        (fun _ => false) 10 0 2).failed = true ∧
    (iterative_enumeration
        (fun n =>
          if n = 0 then [(1, true), (2, true)]
          else if n = 1 then [(3, false)]
          else if n = 2 then [(4, false)]
          else [])
        (fun _ => false) 10 0 2).poppedAfterFail = [1] := by
  refine ⟨by decide, by decide⟩

theorem transmitEntries_budget_zero (l : List Nat) :
    transmitEntries 0 l = (0, [], l.isEmpty) := by
  cases l <;> rfl

/-- C8 amended: once the consumer is gone (no send can succeed), the
loop of the enumerator delivers nothing further and never grows the
queue, but it still pops every already-queued directory, one per
iteration, until the queue is drained. -/
theorem enumerator_after_consumer_gone :
    ∀ (fs : Nat → List (Nat × Bool)) (fd : Nat → Bool) (fuel : Nat)
      (q : List Nat) (failed : Bool),
      (runLoop fs fd fuel q 0 failed).delivered = [] ∧
      (runLoop fs fd fuel q 0 failed).popped = q.take fuel := by
  intro fs fd fuel
  induction fuel with
  | zero => intro q failed; exact ⟨rfl, by simp [runLoop]⟩
  | succ n ih =>
    intro q failed
    rcases q with _ | ⟨d, rest⟩
    · exact ⟨rfl, rfl⟩
    · by_cases hc :
          ((get_entries_partitioned fs fd d).2 ++
            (get_entries_partitioned fs fd d).1) = []
      · have hdirs : (get_entries_partitioned fs fd d).1 = [] :=
          (List.append_eq_nil.mp hc).2
        have hfiles : (get_entries_partitioned fs fd d).2 = [] :=
          (List.append_eq_nil.mp hc).1
        have hel : enumerate_live fs fd 0 d = (0, [], some []) := by
          simp only [enumerate_live, transmitEntries_budget_zero, hdirs, hfiles]
          rfl
        simp only [runLoop, hel]
        refine ⟨?_, ?_⟩
        · simpa using (ih rest _).1
        · simpa [List.take_succ_cons] using (ih rest _).2
      · have hne : ((get_entries_partitioned fs fd d).2 ++
            (get_entries_partitioned fs fd d).1).isEmpty = false := by
          rcases hcomb : ((get_entries_partitioned fs fd d).2 ++
              (get_entries_partitioned fs fd d).1) with _ | ⟨a, as⟩
          · exact absurd hcomb hc
          · rfl
        have hel : enumerate_live fs fd 0 d = (0, [], none) := by
          simp only [enumerate_live, transmitEntries_budget_zero, hne]
          rfl
        simp only [runLoop, hel]
        refine ⟨?_, ?_⟩
        · simpa using (ih rest _).1
        · simpa [List.take_succ_cons] using (ih rest _).2
theorem dedupAux_sublist (eq : α → α → Bool) :
    ∀ (l : List α) (last : α), List.Sublist (dedupAux eq last l) l := by
  intro l
  induction l with
  | nil => intro last; exact List.Sublist.refl []
  | cons y ys ih =>
    intro last
    unfold dedupAux
    by_cases h : eq last y = true
    · rw [if_pos h]
      exact (ih last).trans (List.sublist_cons_self y ys)
    · rw [if_neg h]
      exact (ih y).cons₂ y

theorem dedupKeepFirst_sublist (eq : α → α → Bool) :
    ∀ l : List α, List.Sublist (dedupKeepFirst eq l) l := by
  intro l
  rcases l with _ | ⟨x, xs⟩
  · exact List.Sublist.refl []
  · exact (dedupAux_sublist eq xs x).cons₂ x

theorem dedupAux_chain (eq : α → α → Bool) :
    ∀ (l : List α) (last : α),
      List.Chain' (fun a b => eq a b = false) (last :: dedupAux eq last l) := by
  intro l
  induction l with
  | nil => intro last; simp [dedupAux]
  | cons y ys ih =>
    intro last
    unfold dedupAux
    by_cases h : eq last y = true
    · rw [if_pos h]
      exact ih last
    · rw [if_neg h]
      rw [List.chain'_cons]
      exact ⟨Bool.not_eq_true _ ▸ h, ih y⟩

theorem dedupKeepFirst_chain (eq : α → α → Bool) :
    ∀ l : List α,
      List.Chain' (fun a b => eq a b = false) (dedupKeepFirst eq l) := by
  intro l
  rcases l with _ | ⟨x, xs⟩
  · simp [dedupKeepFirst]
  · exact dedupAux_chain eq xs x

theorem dedupAux_rep (eq : α → α → Bool) :
    ∀ (l : List α) (last a : α), a ∈ l →
      eq last a = true ∨
        ∃ b ∈ dedupAux eq last l, a = b ∨ eq b a = true := by
  intro l
  induction l with
  | nil => intro last a ha; cases ha
  | cons y ys ih =>
    intro last a ha
    unfold dedupAux
    rcases List.mem_cons.mp ha with rfl | ha2
    · by_cases h : eq last a = true
      · exact Or.inl h
      · rw [if_neg h]
        exact Or.inr ⟨a, List.mem_cons_self a _, Or.inl rfl⟩
    · by_cases h : eq last y = true
      · rw [if_pos h]
        exact ih last a ha2
      · rw [if_neg h]
        rcases ih y a ha2 with hy | ⟨b, hb, hab⟩
        · exact Or.inr ⟨y, List.mem_cons_self y _, Or.inr hy⟩
        · exact Or.inr ⟨b, List.mem_cons_of_mem y hb, hab⟩

theorem dedupKeepFirst_rep (eq : α → α → Bool) :
    ∀ (l : List α) (a : α), a ∈ l →
      ∃ b ∈ dedupKeepFirst eq l, a = b ∨ eq b a = true := by
  intro l a ha
  rcases l with _ | ⟨x, xs⟩
  · cases ha
  · rcases List.mem_cons.mp ha with rfl | ha2
    · exact ⟨a, List.mem_cons_self a _, Or.inl rfl⟩
    · rcases dedupAux_rep eq xs x a ha2 with hx | ⟨b, hb, hab⟩
      · exact ⟨x, List.mem_cons_self x _, Or.inr hx⟩
      · exact ⟨b, List.mem_cons_of_mem x hb, hab⟩

/-- C1: for every uniqueness mode the candidate version list is sorted
ascending by modify time; under `All` every candidate is kept (the
result is a permutation of the input); deduplication only removes
elements of the sorted list (the result is a sublist of it, so the
survivors are never reordered), removes only adjacent equals (adjacent
survivors never compare equal), and keeps a representative equal to
every removed record. -/
theorem sort_dedup_versions_spec :
    ∀ (uniq : ListSnapsOfType) (hash : PathBuf → Nat) (l : List PathData),
      List.Sorted MtimeLe (sort_dedup_versions uniq hash l) ∧
      List.Perm (sort_dedup_versions .all hash l) l ∧
      List.Sublist (sort_dedup_versions uniq hash l) (sortByMtime l) ∧
      (uniq ≠ .all →
        List.Chain' (fun a b => containerEq uniq hash a b = false)
          (sort_dedup_versions uniq hash l)) ∧
      (∀ a ∈ l, ∃ b ∈ sort_dedup_versions uniq hash l,
        a = b ∨ containerEq uniq hash b a = true) := by
  intro uniq hash l
  have hsorted : List.Sorted MtimeLe (sortByMtime l) :=
    List.sorted_insertionSort MtimeLe l
  have hperm : List.Perm (sortByMtime l) l :=
    List.perm_insertionSort MtimeLe l
  refine ⟨?_, hperm, ?_, ?_, ?_⟩
  · rcases uniq
    · exact hsorted
    · exact List.Pairwise.sublist
        (dedupKeepFirst_sublist (containerEq .uniqueMetadata hash) (sortByMtime l))
        hsorted
    · exact List.Pairwise.sublist
        (dedupKeepFirst_sublist (containerEq .uniqueContents hash) (sortByMtime l))
        hsorted
  · rcases uniq
    · exact List.Sublist.refl _
    · exact dedupKeepFirst_sublist _ _
    · exact dedupKeepFirst_sublist _ _
  · intro hne
    rcases uniq
    · exact absurd rfl hne
    · exact dedupKeepFirst_chain _ _
    · exact dedupKeepFirst_chain _ _
  · intro a ha
    have ha2 : a ∈ sortByMtime l := hperm.mem_iff.mpr ha
    rcases uniq
    · exact ⟨a, ha2, Or.inl rfl⟩
    · exact dedupKeepFirst_rep _ _ a ha2
    · exact dedupKeepFirst_rep _ _ a ha2

/-- C1 witness: the theorem applied at a concrete input. -/
theorem sort_dedup_versions_spec_witness :
    List.Chain'
      (fun a b => containerEq .uniqueMetadata (fun _ => 0) a b = false)
      (sort_dedup_versions .uniqueMetadata (fun _ => 0)
        [⟨["b"], some ⟨5, 200⟩⟩, ⟨["a"], some ⟨5, 100⟩⟩, ⟨["c"], some ⟨5, 100⟩⟩]) :=
  (sort_dedup_versions_spec .uniqueMetadata (fun _ => 0)
      [⟨["b"], some ⟨5, 200⟩⟩, ⟨["a"], some ⟨5, 100⟩⟩, ⟨["c"], some ⟨5, 100⟩⟩]).2.2.2.1
    (by decide)

theorem mem_ancestors_length_le :
    ∀ (p : PathBuf), ∀ a ∈ ancestors p, a.length ≤ p.length := by
  intro p
  induction p with
  | nil => intro a ha; simp [ancestors] at ha; simp [ha]
  | cons x ps ih =>
    intro a ha
    simp only [ancestors, List.mem_append, List.mem_map, List.mem_singleton] at ha
    rcases ha with ⟨b, hb, rfl⟩ | rfl
    · simpa using Nat.succ_le_succ (ih b hb)
    · simp

theorem ancestors_pairwise :
    ∀ p : PathBuf, (ancestors p).Pairwise (fun a b => b.length < a.length) := by
  intro p
  induction p with
  | nil => simp [ancestors]
  | cons x ps ih =>
    simp only [ancestors]
    rw [List.pairwise_append]
    refine ⟨?_, by simp, ?_⟩
    · rw [List.pairwise_map]
      exact ih.imp (fun h => by simpa using Nat.succ_lt_succ h)
    · intro a ha b hb
      simp only [List.mem_singleton] at hb
      simp only [List.mem_map] at ha
      rcases ha with ⟨a2, _, rfl⟩
      simp [hb]

theorem max_len_mem :
    ∀ (ds : List PathBuf), ∀ a ∈ ds, a.length ≤ max_len ds := by
  intro ds
  induction ds with
  | nil => intro a ha; cases ha
  | cons k ks ih =>
    intro a ha
    rcases List.mem_cons.mp ha with rfl | ha2
    · exact le_max_left _ _
    · exact le_trans (ih a ha2) (le_max_right _ _)

theorem find?_first_longest :
    ∀ (l : List PathBuf) (q : PathBuf → Bool) (m : PathBuf),
      l.Pairwise (fun a b => b.length < a.length) →
      l.find? q = some m →
      ∀ a ∈ l, q a = true → a.length ≤ m.length := by
  intro l
  induction l with
  | nil => intro q m _ hm; cases hm
  | cons x xs ih =>
    intro q m hp hm a ha hqa
    have hhead := (List.pairwise_cons.mp hp).1
    have htail := (List.pairwise_cons.mp hp).2
    by_cases hqx : q x = true
    · rw [List.find?_cons_of_pos _ hqx] at hm
      injection hm with hm2
      rcases List.mem_cons.mp ha with rfl | ha2
      · exact hm2 ▸ le_refl _
      · exact hm2 ▸ le_of_lt (hhead a ha2)
    · rw [List.find?_cons_of_neg _ (by simpa using hqx)] at hm
      rcases List.mem_cons.mp ha with rfl | ha2
      · exact absurd hqa hqx
      · exact ih q m htail hm a ha2 hqa

theorem dropWhile_find?_eq (pred q : PathBuf → Bool)
    (h : ∀ a, pred a = true → q a = false) :
    ∀ l : List PathBuf, (l.dropWhile pred).find? q = l.find? q := by
  intro l
  induction l with
  | nil => rfl
  | cons x xs ih =>
    by_cases hx : pred x = true
    · rw [List.dropWhile_cons_of_pos hx, ih,
        List.find?_cons_of_neg _ (by simp [h x hx])]
    · rw [List.dropWhile_cons_of_neg (by simpa using hx)]

/-- C6: `proximate_dataset` returns the longest ancestor of the
canonical path that is a dataset-map key — the depth-based skipping
never changes the result of searching the full ancestor walk — and it
fails exactly when no ancestor is in the dataset map. -/
theorem proximate_dataset_longest_ancestor :
    ∀ (p : PathBuf) (ds : List PathBuf),
      proximate_dataset p ds =
        (ancestors p).find? (fun a => decide (a ∈ ds)) ∧
      (proximate_dataset p ds = none ↔ ∀ a ∈ ancestors p, a ∉ ds) ∧
      (∀ m, proximate_dataset p ds = some m →
        m ∈ ancestors p ∧ m ∈ ds ∧
          ∀ a ∈ ancestors p, a ∈ ds → a.length ≤ m.length) := by
  intro p ds
  have hskip : proximate_dataset p ds =
      (ancestors p).find? (fun a => decide (a ∈ ds)) := by
    unfold proximate_dataset
    refine dropWhile_find?_eq _ _ ?_ (ancestors p)
    intro a hpred
    have h1 : a.length > max_len ds := of_decide_eq_true hpred
    refine decide_eq_false ?_
    intro hmem
    exact absurd (max_len_mem ds a hmem) (not_le.mpr h1)
  refine ⟨hskip, ?_, ?_⟩
  · rw [hskip, List.find?_eq_none]
    constructor
    · intro h a ha hmem
      exact h a ha (decide_eq_true hmem)
    · intro h a ha
      intro hdec
      exact h a ha (of_decide_eq_true hdec)
  · intro m hm
    rw [hskip] at hm
    have hq := List.find?_some hm
    refine ⟨List.mem_of_find?_eq_some hm,
      of_decide_eq_true (by simpa using hq), ?_⟩
    intro a ha hmem
    exact find?_first_longest (ancestors p) _ m (ancestors_pairwise p) hm a ha
      (decide_eq_true hmem)

/-- C6 witness: the theorem applied at a concrete path and dataset
map. -/
theorem proximate_dataset_longest_witness :
    (["tank"] : PathBuf) ∈ ancestors ["tank", "a", "b"] ∧
    (["tank"] : PathBuf) ∈ [(["tank"] : PathBuf), ["usr"]] :=
  have h := (proximate_dataset_longest_ancestor ["tank", "a", "b"]
    [["tank"], ["usr"]]).2.2 ["tank"] (by decide)
  ⟨h.1, h.2.1⟩

theorem isPrefixOf_iff_ex :
    ∀ (l1 l2 : List Char), l1.isPrefixOf l2 = true ↔ ∃ t, l1 ++ t = l2 := by
  intro l1
  induction l1 with
  | nil =>
    intro l2
    simp [List.isPrefixOf]
  | cons a as ih =>
    intro l2
    rcases l2 with _ | ⟨b, bs⟩
    · simp [List.isPrefixOf]
    · simp only [List.isPrefixOf, Bool.and_eq_true, beq_iff_eq, ih bs]
      constructor
      · rintro ⟨h1, t, h2⟩
        exact ⟨t, by rw [List.cons_append, h1, h2]⟩
      · rintro ⟨t, ht⟩
        injection ht with h1 h2
        exact ⟨h1, t, h2⟩

theorem occursIn_nil_pat : ∀ l : List Char, occursIn [] l = true := by
  intro l
  rcases l with _ | ⟨c, cs⟩
  · rfl
  · simp [occursIn, List.isPrefixOf]

theorem occursIn_parts :
    ∀ (pat pre post : List Char), occursIn pat (pre ++ pat ++ post) = true := by
  intro pat pre
  induction pre with
  | nil =>
    intro post
    rcases hp : pat with _ | ⟨p, ps⟩
    · simpa using occursIn_nil_pat post
    · show occursIn (p :: ps) ((p :: ps) ++ post) = true
      have h1 : (p :: ps).isPrefixOf ((p :: ps) ++ post) = true :=
        (isPrefixOf_iff_ex _ _).mpr ⟨post, rfl⟩
      rcases hq : (p :: ps) ++ post with _ | ⟨q, qs⟩
      · cases hq
      · rw [show occursIn (p :: ps) (q :: qs) =
            ((p :: ps).isPrefixOf (q :: qs) || occursIn (p :: ps) qs) from rfl]
        rw [← hq, h1]
        rfl
  | cons c pre2 ih =>
    intro post
    show ((pat.isPrefixOf (c :: (pre2 ++ pat ++ post))) ||
        occursIn pat (pre2 ++ pat ++ post)) = true
    rw [ih post]
    exact Bool.or_true _

theorem splitOnce_here (pat t : List Char) (hp : pat ≠ []) :
    splitOnce pat (pat ++ t) = some ([], t) := by
  rcases pat with _ | ⟨p, ps⟩
  · exact absurd rfl hp
  · show splitOnce (p :: ps) (p :: (ps ++ t)) = some ([], t)
    unfold splitOnce
    have hc : (p :: ps).isPrefixOf (p :: (ps ++ t)) = true :=
      (isPrefixOf_iff_ex (p :: ps) (p :: (ps ++ t))).mpr ⟨t, rfl⟩
    rw [if_pos hc]
    show some ([], List.drop (p :: ps).length ((p :: ps) ++ t)) = some ([], t)
    rw [List.drop_left]

theorem splitOnce_boundary (pat : List Char) (hp : pat ≠ []) :
    ∀ (d t : List Char),
      (∀ i, i < d.length → pat.isPrefixOf (d.drop i ++ (pat ++ t)) = false) →
      splitOnce pat (d ++ (pat ++ t)) = some (d, t) := by
  intro d
  induction d with
  | nil =>
    intro t _
    simpa using splitOnce_here pat t hp
  | cons c d2 ih =>
    intro t h
    have h0 : pat.isPrefixOf ((c :: d2) ++ (pat ++ t)) = false := by
      have := h 0 (Nat.succ_pos _)
      simpa using this
    show splitOnce pat (c :: (d2 ++ (pat ++ t))) = some (c :: d2, t)
    unfold splitOnce
    rw [if_neg (by simp [show pat.isPrefixOf (c :: (d2 ++ (pat ++ t))) = false
      from h0])]
    rw [ih t (fun i hi => by simpa using h (i + 1) (Nat.succ_lt_succ hi))]
    rfl

theorem sep_border_only_fourteen :
    ∀ a : Nat, a < 15 → 0 < a →
      zfsSnapSep.drop a = zfsSnapSep.take (15 - a) → a = 14 := by
  decide

theorem not_isPrefixOf_middle :
    ∀ (d t : List Char), occursIn zfsSnapSep (d ++ ['/']) = false →
      ∀ i, i < d.length →
        zfsSnapSep.isPrefixOf (d.drop i ++ (zfsSnapSep ++ t)) = false := by
  intro d t hno i hi
  rcases hb : zfsSnapSep.isPrefixOf (d.drop i ++ (zfsSnapSep ++ t)) with _ | _
  · rfl
  · exfalso
    obtain ⟨u, hu⟩ := (isPrefixOf_iff_ex _ _).mp hb
    have hsep15 : zfsSnapSep.length = 15 := by decide
    have hdsplit : d.take i ++ d.drop i = d := List.take_append_drop i d
    have hAlen : 0 < (d.drop i).length := by
      rw [List.length_drop]
      omega
    by_cases hlen : 15 ≤ (d.drop i).length
    · -- the separator fits inside the remaining part of `d`
      have htake := congrArg (fun l => List.take 15 l) hu
      simp only at htake
      rw [← hsep15, List.take_left] at htake
      rw [hsep15, List.take_append_eq_append_take,
        show 15 - (d.drop i).length = 0 from by omega, List.take_zero,
        List.append_nil] at htake
      -- htake : zfsSnapSep = (d.drop i).take 15
      have hshape : d ++ ['/'] =
          d.take i ++ zfsSnapSep ++ (((d.drop i).drop 15) ++ ['/']) := by
        calc d ++ ['/'] = (d.take i ++ d.drop i) ++ ['/'] := by rw [hdsplit]
          _ = (d.take i ++ ((d.drop i).take 15 ++ (d.drop i).drop 15)) ++ ['/'] := by
              rw [List.take_append_drop 15 (List.drop i d)]
          _ = d.take i ++ zfsSnapSep ++ (((d.drop i).drop 15) ++ ['/']) := by
              rw [← htake]
              simp [List.append_assoc]
      rw [hshape] at hno
      rw [occursIn_parts] at hno
      cases hno
    · -- the separator overlaps the boundary: it must have a border
      have hlt : (d.drop i).length < 15 := by omega
      have htake := congrArg (fun l => List.take (d.drop i).length l) hu
      simp only at htake
      rw [List.take_append_eq_append_take, List.take_left,
        show (d.drop i).length - zfsSnapSep.length = 0 from by omega,
        List.take_zero, List.append_nil] at htake
      -- htake : zfsSnapSep.take (d.drop i).length = d.drop i
      have hdrop := congrArg (fun l => List.drop (d.drop i).length l) hu
      simp only at hdrop
      rw [List.drop_append_eq_append_drop, List.drop_left,
        show (d.drop i).length - zfsSnapSep.length = 0 from by omega,
        List.drop_zero] at hdrop
      -- hdrop : zfsSnapSep.drop (d.drop i).length ++ u = zfsSnapSep ++ t
      have htk := congrArg (fun l => List.take (15 - (d.drop i).length) l) hdrop
      simp only at htk
      have hlendrop : (zfsSnapSep.drop (d.drop i).length).length =
          15 - (d.drop i).length := by
        rw [List.length_drop, hsep15]
      rw [List.take_append_eq_append_take, ← hlendrop, List.take_length,
        Nat.sub_self, List.take_zero, List.append_nil] at htk
      rw [hlendrop, List.take_append_eq_append_take,
        show 15 - (d.drop i).length - zfsSnapSep.length = 0 from by omega,
        List.take_zero, List.append_nil] at htk
      -- htk : zfsSnapSep.drop (d.drop i).length = zfsSnapSep.take (15 - ..)
      have ha14 := sep_border_only_fourteen (d.drop i).length hlt hAlen htk
      have htake14 : zfsSnapSep.take 14 = d.drop i := by
        rw [← ha14]; exact htake
      have hsepsplit : zfsSnapSep.take 14 ++ ['/'] = zfsSnapSep := by decide
      have hshape : d ++ ['/'] = d.take i ++ zfsSnapSep ++ [] := by
        rw [List.append_nil, ← hsepsplit, htake14, ← List.append_assoc,
          hdsplit]
      rw [hshape] at hno
      rw [occursIn_parts] at hno
      cases hno

theorem splitOnce_single (c : Char) :
    ∀ (name rest : List Char), c ∉ name →
      splitOnce [c] (name ++ c :: rest) = some (name, rest) := by
  intro name
  induction name with
  | nil =>
    intro rest _
    show splitOnce [c] (c :: rest) = some ([], rest)
    unfold splitOnce
    have hc : [c].isPrefixOf (c :: rest) = true := by
      simp [List.isPrefixOf]
    rw [if_pos hc]
    rfl
  | cons n name2 ih =>
    intro rest hc
    have hcn : c ≠ n := fun h => hc (h ▸ List.mem_cons_self n name2)
    have hcn2 : c ∉ name2 := fun h => hc (List.mem_cons_of_mem n h)
    show splitOnce [c] (n :: (name2 ++ c :: rest)) = some (n :: name2, rest)
    unfold splitOnce
    rw [if_neg (by
      simp only [List.isPrefixOf, Bool.and_eq_true, beq_iff_eq]
      intro ⟨h1, _⟩
      exact hcn h1)]
    rw [ih rest hcn2]
    rfl

theorem pathJoin_plain (a b : List Char) (ha : a ≠ [])
    (hal : a.getLast? ≠ some '/') (hbh : b.head? ≠ some '/') :
    pathJoin a b = a ++ '/' :: b := by
  unfold pathJoin
  rw [if_neg hbh, if_neg ha, if_neg hal]

/-- C7: for every snapshot path of the form
`<dataset>/.zfs/snapshot/<name>/<rest>` (with a well-formed dataset
part, snapshot name and rest), the guard recognises it and `live_path`
returns `<dataset>/<rest>`: the path splits once on the snapshot
separator, the remainder splits once on `/` to drop the snapshot name,
and the dataset part is joined with the remainder. -/
theorem live_path_reconstructs :
    ∀ (d name rest : List Char),
      d ≠ [] →
      d.getLast? ≠ some '/' →
      occursIn zfsSnapSep (d ++ ['/']) = false →
      '/' ∉ name →
      rest.head? ≠ some '/' →
      is_zfs_snap_path (d ++ zfsSnapSep ++ (name ++ '/' :: rest)) = true ∧
      live_path (d ++ zfsSnapSep ++ (name ++ '/' :: rest)) =
        some (d ++ '/' :: rest) := by
  intro d name rest hd hdl hno hname hrest
  constructor
  · unfold is_zfs_snap_path
    have hshape : d ++ zfsSnapSep ++ (name ++ '/' :: rest) =
        d ++ zfsSnapshotDirectory ++ ('/' :: (name ++ '/' :: rest)) := by
      unfold zfsSnapSep
      simp [List.append_assoc]
    rw [hshape, occursIn_parts]
  · unfold live_path
    have hsep_ne : zfsSnapSep ≠ [] := by decide
    have h1 : splitOnce zfsSnapSep (d ++ (zfsSnapSep ++ (name ++ '/' :: rest))) =
        some (d, name ++ '/' :: rest) :=
      splitOnce_boundary zfsSnapSep hsep_ne d (name ++ '/' :: rest)
        (not_isPrefixOf_middle d (name ++ '/' :: rest) hno)
    rw [List.append_assoc, h1]
    show (splitOnce ['/'] (name ++ '/' :: rest)).map
        (fun pr2 => pathJoin d pr2.2) = some (d ++ '/' :: rest)
    rw [splitOnce_single '/' name rest hname]
    show some (pathJoin d rest) = some (d ++ '/' :: rest)
    rw [pathJoin_plain d rest hd hdl hrest]

/-- C7 witness: the theorem applied at the concrete snapshot path
`/tank/.zfs/snapshot/s1/sub/f`, recovering `/tank/sub/f`. -/
theorem live_path_reconstructs_witness :
    live_path ("/tank".toList ++ zfsSnapSep ++ ("s1".toList ++ '/' :: "sub/f".toList)) =
      some ("/tank".toList ++ '/' :: "sub/f".toList) :=
  (live_path_reconstructs "/tank".toList "s1".toList "sub/f".toList
    (by decide) (by decide) (by decide) (by decide) (by decide)).2

end Httm
